import Mathlib

/-!
Verification development for the S3-to-local sync agent in `src/main.py`.

Strings are modelled as Lean `String` (a packed `List Char` in this
toolchain).  The Python string operations used by the source
(`str.split`, `str.startswith`, slicing, `str.replace`) and the library
functions it calls (`posixpath.normpath`, `pathlib` joining, `.suffix`,
`.with_suffix`) are embedded as executable functions below, following
their documented CPython semantics (POSIX path flavour).  Filesystem and
network effects are embedded as explicit event traces; the thread pool is
modelled as sequential execution of the work items in submission order.
-/

namespace SyncAgent

/-- Python `str.startswith`, as character-list prefix test. -/
def lpre : List Char → List Char → Bool
  | [], _ => true
  | _ :: _, [] => false
  | a :: as, b :: bs => a == b && lpre as bs

/-- Python `s.startswith(pre)` on `String`. -/
def pyStarts (pre s : String) : Bool := lpre pre.data s.data

/-- Python `s.split(c)` on character lists (keeps empty pieces). -/
def segs (c : Char) : List Char → List (List Char)
  | [] => [[]]
  | a :: as =>
    match segs c as with
    | [] => [[]]
    | s :: ss => if a == c then [] :: s :: ss else (a :: s) :: ss

/-- Python `c.join(pieces)` for a single-character separator. -/
def joinC (c : Char) : List (List Char) → List Char
  | [] => []
  | [s] => s
  | s :: s' :: ss => s ++ c :: joinC c (s' :: ss)

/-- Python slicing `s[n:]`. -/
def strDrop (s : String) (n : Nat) : String := ⟨s.data.drop n⟩

/-- `key.replace("\\", "/")` from `s3_key_to_local_path` (single-character
replace is a character map). -/
def normSlashes (s : String) : String :=
  ⟨s.data.map (fun c => if c == '\\' then '/' else c)⟩

/-- One step of the `new_comps` loop of CPython `posixpath.normpath`:
skip empty and `.` components, push a component when it is not `..`, when
the path is relative and nothing has been accumulated, or when the last
accumulated component is itself `..`; otherwise pop.  The accumulator is
kept reversed (head = last pushed). -/
def normStep (abs0 : Bool) (acc : List String) (comp : String) : List String :=
  if comp == "" || comp == "." then acc
  else if comp != ".." || (!abs0 && acc.isEmpty) || acc.head? == some ".." then
    comp :: acc
  else acc.tail

/-- Leading-slash count of CPython `posixpath.normpath` (1, or the special
POSIX double slash, kept as 2). -/
def initSlashes (l : List Char) : Nat :=
  if lpre ['/', '/'] l && !(lpre ['/', '/', '/'] l) then 2
  else if lpre ['/'] l then 1 else 0

/-- The slash count and normalized component list computed by CPython
`posixpath.normpath` before rendering. -/
def normParts (p : String) : Nat × List String :=
  let k := initSlashes p.data
  (k, (((segs '/' p.data).map (fun l => (⟨l⟩ : String))).foldl
        (normStep (k != 0)) []).reverse)

/-- CPython `posixpath.normpath` (the `os.path.normpath` call of
`s3_key_to_local_path`, POSIX flavour). -/
def normpath (p : String) : String :=
  if p == "" then "."
  else
    let pr := normParts p
    let res : String := ⟨List.replicate pr.1 '/' ++ joinC '/' (pr.2.map String.data)⟩
    if res == "" then "." else res

/-- The prefix-stripping step of `s3_key_to_local_path`: if the key starts
with the configured prefix, drop it, then drop one following `/`. -/
def stripPfx (key pfx : String) : String :=
  if !(pfx == "") && pyStarts pfx key then
    let r := strDrop key pfx.data.length
    if pyStarts "/" r then strDrop r 1 else r
  else key

/-- The normalized relative path computed inside `s3_key_to_local_path`
(prefix stripping, backslash normalization, `os.path.normpath`). -/
def relOf (key pfx : String) : String := normpath (normSlashes (stripPfx key pfx))

/-- `pathlib` `/` join (POSIX): an absolute right operand discards the
base; a bare `.` is collapsed away by path parsing. -/
def pathJoin (base child : String) : String :=
  if pyStarts "/" child then child
  else if child == "." then base
  else base ++ "/" ++ child

/-- `s3_key_to_local_path(key, prefix, dest_dir)` from `src/main.py`:
strip the prefix (plus one following separator), normalize backslashes,
lexically normalize, raise `ValueError` when the result starts with the
string `..`, otherwise return `dest_dir / rel`. -/
def s3_key_to_local_path (key pfx destDir : String) : Except String String :=
  let rel := relOf key pfx
  if pyStarts ".." rel then Except.error ("Unsafe key path: " ++ key)
  else Except.ok (pathJoin destDir rel)

/-- `true` on the `ValueError` outcome of the path mapper. -/
def isErr : Except String String → Bool
  | Except.error _ => true
  | Except.ok _ => false

/-- Lexical containment in a destination root: the path is the root
itself, or extends `root ++ "/"` with a remainder none of whose `/`
segments is the parent-directory escape `..`. -/
def insideRoot (root p : String) : Bool :=
  p == root ||
    (pyStarts (root ++ "/") p &&
      !((segs '/' (p.data.drop (root.data.length + 1))).contains ['.', '.']))

/-- Last `/`-separated segment of a path (`pathlib` `.name` for the paths
produced here). -/
def pyName (p : String) : String := ⟨(segs '/' p.data).getLastD []⟩

/-- Index of the last occurrence of `c` (Python `str.rfind`), `none` for
-1. -/
def rfindAux (c : Char) (l : List Char) (idx : Nat) : Option Nat :=
  match l with
  | [] => none
  | a :: as =>
    match rfindAux c as (idx + 1) with
    | some j => some j
    | none => if a == c then some idx else none

/-- The suffix of a name given the result of `rfind('.')`: the part of
the name from its last dot, unless that dot is leading or trailing
(CPython `pathlib` suffix rule). -/
def sfxFrom (nm : List Char) : Option Nat → List Char
  | some i => if 0 < i ∧ i < nm.length - 1 then nm.drop i else []
  | none => []

/-- `pathlib` `.suffix`. -/
def pySuffix (p : String) : String :=
  ⟨sfxFrom (pyName p).data (rfindAux '.' (pyName p).data 0)⟩

/-- `pathlib` `.with_suffix(suf)`: replace the suffix of the final name.
The `ValueError` guards of CPython cannot fire for the suffix arguments
used by the source (they start with a dot, are not `"."`, and contain no
separator), so the function is embedded total. -/
def pyWithSuffix (p suf : String) : String :=
  let nm := (pyName p).data
  let old := (pySuffix p).data
  let newNm := nm.take (nm.length - old.length) ++ suf.data
  ⟨p.data.take (p.data.length - nm.length) ++ newNm⟩

/-- `tmp_path = target_path.with_suffix(target_path.suffix + ".part")`
from `worker_download`. -/
def tmpOf (target : String) : String := pyWithSuffix target (pySuffix target ++ ".part")

/-- Directory part of a path (`pathlib` `.parent`, as the join of all but
the last `/` segment). -/
def parentDir (p : String) : String := ⟨joinC '/' ((segs '/' p.data).dropLast)⟩

/-- The in-memory `StateStore._data` dictionary (`key -> etag`), as an
association list with unique keys. -/
def Store : Type := List (String × String)

instance : DecidableEq Store := by
  unfold Store
  infer_instance

/-- Python `self._data.get(key)`. -/
def storeGet : Store → String → Option String
  | [], _ => none
  | (k, v) :: rest, q => if k == q then some v else storeGet rest q

/-- `StateStore.has(key, etag)`: `self._data.get(key) == etag` (a missing
key compares unequal to any etag string). -/
def storeHas (st : Store) (k e : String) : Bool :=
  match storeGet st k with
  | some v => v == e
  | none => false

/-- `StateStore.set(key, etag)`: dictionary upsert. -/
def storeSet (st : Store) (k e : String) : Store :=
  (k, e) :: st.filter (fun kv => !(kv.1 == k))

/-- `StateStore.prune(keep_keys)`: drop every entry whose key is not in
the live set (the set is modelled as a key list with membership). -/
def storePrune (st : Store) (keep : List String) : Store :=
  st.filter (fun kv => keep.contains kv.1)

/-- One listing record: `obj["Key"]` and `obj["ETag"].strip('"')`. -/
structure WorkItem where
  key : String
  etag : String
deriving DecidableEq

/-- The configuration fields consumed by the worker and the cycle. -/
structure Cfg where
  pfx : String
  destDir : String
  deleteAfterDownload : Bool
deriving DecidableEq

/-- Success/failure of the fallible external effects of one
`worker_download` run: the S3 download into the temporary file, the
atomic rename, and the optional remote delete. -/
structure Outcome where
  downloadOk : Bool
  renameOk : Bool
  deleteOk : Bool
deriving DecidableEq

/-- Effect events emitted by one `worker_download` run, in program
order. `writeBytes p complete` is object data reaching path `p`
(`complete = false` for a download that failed partway). -/
inductive Ev where
  | mkdirP (dir : String)
  | writeBytes (path : String) (complete : Bool)
  | renameFile (src dst : String)
  | setEntry (key etag : String)
  | saveStore
  | deleteRemote (key : String)
  | logError (msg : String)
  | logWarn (msg : String)
  | unlinkTmp (path : String)
deriving DecidableEq

/-- How `worker_download` terminates: a normal `return b`, or a Python
exception escaping the function. -/
inductive WorkerOut where
  | returned (b : Bool)
  | raised (msg : String)
deriving DecidableEq

/-- The `try` block of `worker_download` once the target path has been
computed: download into the sibling temporary file, atomically rename it
onto the target, record and persist the state entry, optionally delete
the remote object; a download or rename failure is caught, logged, the
temporary file is removed best-effort and `False` is returned. -/
def workerFetch (cfg : Cfg) (oc : Outcome) (it : WorkItem) (target : String) :
    WorkerOut × List Ev :=
  if oc.downloadOk then
    if oc.renameOk then
      if cfg.deleteAfterDownload then
        if oc.deleteOk then
          (WorkerOut.returned true,
           [Ev.mkdirP (parentDir (tmpOf target)), Ev.writeBytes (tmpOf target) true,
            Ev.mkdirP (parentDir target), Ev.renameFile (tmpOf target) target,
            Ev.setEntry it.key it.etag, Ev.saveStore, Ev.deleteRemote it.key])
        else
          (WorkerOut.returned true,
           [Ev.mkdirP (parentDir (tmpOf target)), Ev.writeBytes (tmpOf target) true,
            Ev.mkdirP (parentDir target), Ev.renameFile (tmpOf target) target,
            Ev.setEntry it.key it.etag, Ev.saveStore, Ev.deleteRemote it.key,
            Ev.logWarn ("Failed to delete " ++ it.key)])
      else
        (WorkerOut.returned true,
         [Ev.mkdirP (parentDir (tmpOf target)), Ev.writeBytes (tmpOf target) true,
          Ev.mkdirP (parentDir target), Ev.renameFile (tmpOf target) target,
          Ev.setEntry it.key it.etag, Ev.saveStore])
    else
      (WorkerOut.returned false,
       [Ev.mkdirP (parentDir (tmpOf target)), Ev.writeBytes (tmpOf target) true,
        Ev.mkdirP (parentDir target),
        Ev.logError ("Failed to download " ++ it.key), Ev.unlinkTmp (tmpOf target)])
  else
    (WorkerOut.returned false,
     [Ev.mkdirP (parentDir (tmpOf target)), Ev.writeBytes (tmpOf target) false,
      Ev.logError ("Failed to download " ++ it.key), Ev.unlinkTmp (tmpOf target)])

/-- `worker_download(s3, state, cfg, obj)` from `src/main.py`, as the
pair (termination, event trace).  The early `state.has` check reads the
store passed in; the path mapping happens before the `try` block, so a
`ValueError` there escapes the function (`raised`); the `try` block
itself is `workerFetch`. -/
def worker_download (cfg : Cfg) (oc : Outcome) (mem : Store) (it : WorkItem) :
    WorkerOut × List Ev :=
  if storeHas mem it.key it.etag then (WorkerOut.returned false, [])
  else
    match s3_key_to_local_path it.key cfg.pfx cfg.destDir with
    | Except.error msg => (WorkerOut.raised msg, [])
    | Except.ok target => workerFetch cfg oc it target

/-- In-memory store plus the last durably persisted copy of it. -/
structure SyncSt where
  mem : Store
  dur : Store
deriving DecidableEq

/-- Store effect of one event: `state.set` updates the in-memory mapping,
`state.save` makes the current in-memory mapping durable. -/
def applyEvMD (s : SyncSt) : Ev → SyncSt
  | Ev.setEntry k e => ⟨storeSet s.mem k e, s.dur⟩
  | Ev.saveStore => ⟨s.mem, s.mem⟩
  | _ => s

/-- Store effect of an event trace. -/
def applyEvsMD (s : SyncSt) (evs : List Ev) : SyncSt := evs.foldl applyEvMD s

/-- The `ThreadPoolExecutor` fetch phase, modelled as sequential
execution of the submitted work items in submission order; `outs n`
supplies the external outcome of the `n`-th item.  A `raised` worker is
swallowed (the controller never calls `future.result()`), so the loop
continues with the remaining items. -/
def fetchPhase (cfg : Cfg) (outs : Nat → Outcome) (s : SyncSt) :
    List WorkItem → List (WorkerOut × List Ev) × SyncSt
  | [] => ([], s)
  | it :: its =>
    let r := worker_download cfg (outs 0) s.mem it
    let s' := applyEvsMD s r.2
    let rest := fetchPhase cfg (fun n => outs (n + 1)) s' its
    (r :: rest.1, rest.2)

/-- `seen_keys = {o["Key"] for o in objects}` (as a key list). -/
def liveKeys (listing : List WorkItem) : List String := listing.map (fun o => o.key)

/-- Controller-level events of one poll cycle: the prune call, the worker
events, the `time.sleep` backoff after a listing error (not woken by the
stop event), and the `stop_event.wait` inter-cycle wait (woken by the
stop event). -/
inductive CEv where
  | pruneSt (live : List String)
  | wEv (e : Ev)
  | logTop (msg : String)
  | blindSleep (secs : Nat)
  | waitStop (secs : Nat)
deriving DecidableEq

/-- `true` exactly for the wait primitive that the cancellation signal
can interrupt (`stop_event.wait`); `time.sleep` is not interruptible by
the stop event (the signal handler only sets the event). -/
def interruptibleW : CEv → Bool
  | CEv.waitStop _ => true
  | _ => false

/-- `true` for the two events that make the controller wait. -/
def isWaitEv : CEv → Bool
  | CEv.waitStop _ => true
  | CEv.blindSleep _ => true
  | _ => false

/-- Result of one iteration of the `while` loop of `main`. -/
structure CycleOut where
  trace : List CEv
  st : SyncSt
  work : List WorkItem
  results : List (WorkerOut × List Ev)
deriving DecidableEq

/-- One iteration of the polling loop of `main` (`src/main.py`): on a
listing success (`some listing`) it prunes the state to the listed keys,
filters the records whose `(key, etag)` is not recorded, runs the fetch
phase on them, and then performs the interruptible inter-cycle wait; on a
listing `ClientError` (`none`) it logs, sleeps `min(30, interval)`
seconds with `time.sleep`, and then still performs the inter-cycle
wait. -/
def cycleBody (cfg : Cfg) (outs : Nat → Outcome) (s : SyncSt)
    (listingRes : Option (List WorkItem)) (interval : Nat) : CycleOut :=
  match listingRes with
  | none =>
    { trace := [CEv.logTop "S3 error", CEv.blindSleep (min 30 interval),
                CEv.waitStop interval],
      st := s, work := [], results := [] }
  | some listing =>
    let s1 : SyncSt := ⟨storePrune s.mem (liveKeys listing), s.dur⟩
    let work := listing.filter (fun o => !(storeHas s1.mem o.key o.etag))
    let fr := fetchPhase cfg outs s1 work
    { trace := CEv.pruneSt (liveKeys listing) ::
        (fr.1.flatMap (fun r => r.2.map CEv.wEv) ++ [CEv.waitStop interval]),
      st := fr.2, work := work, results := fr.1 }

/-- The `while not stop_event.is_set()` loop of `main`, fuel-bounded:
`stopAt n` is the stop event as observed before cycle `n`; the loop exits
without running the cycle body when it is set. -/
def mainLoop (cfg : Cfg) (outsAt : Nat → Nat → Outcome)
    (listings : Nat → Option (List WorkItem)) (stopAt : Nat → Bool)
    (interval : Nat) : Nat → Nat → SyncSt → List (Nat × CycleOut)
  | 0, _, _ => []
  | fuel + 1, n, s =>
    if stopAt n then []
    else
      let c := cycleBody cfg (outsAt n) s (listings n) interval
      (n, c) :: mainLoop cfg outsAt listings stopAt interval fuel (n + 1) c.st

/-- Content state of a local path while worker events are applied. -/
inductive FsVal where
  | fullFile
  | partFile
  | missing
deriving DecidableEq

/-- Filesystem effect of one worker event: a complete write yields a full
file, an incomplete one a partial file; `Path.replace` atomically moves
the source content onto the destination; unlink removes. -/
def applyFsEv (fs : String → FsVal) : Ev → String → FsVal
  | Ev.writeBytes p true => fun q => if q = p then FsVal.fullFile else fs q
  | Ev.writeBytes p false => fun q => if q = p then FsVal.partFile else fs q
  | Ev.renameFile src dst =>
      fun q => if q = dst then fs src else if q = src then FsVal.missing else fs q
  | Ev.unlinkTmp p => fun q => if q = p then FsVal.missing else fs q
  | _ => fs

/-- Filesystem effect of a worker event trace. -/
def applyFsEvs (evs : List Ev) (fs : String → FsVal) : String → FsVal :=
  evs.foldl applyFsEv fs

/-- `true` on the events that change the file at path `p` (the source of
a rename is also vacated, but no claim concerns the vacated side). -/
def modifiesPath (p : String) : Ev → Bool
  | Ev.writeBytes q _ => q == p
  | Ev.renameFile _ dst => dst == p
  | Ev.unlinkTmp q => q == p
  | _ => false

/-- `self.file_path` of `StateStore`: `base_dir / "state.json"`. -/
def statePathOf (baseDir : String) : String := baseDir ++ "/" ++ "state.json"

/-- `self.file_path.with_suffix(".tmp")` of `StateStore.save`. -/
def stateTmpOf (baseDir : String) : String := pyWithSuffix (statePathOf baseDir) ".tmp"

/-- Content state of the state document on disk. -/
inductive DocVal where
  | oldDoc
  | newDoc (st : Store)
  | partDoc
  | absent
deriving DecidableEq

/-- Point update of a document filesystem. -/
def updFs (fs : String → DocVal) (p : String) (v : DocVal) : String → DocVal :=
  fun q => if q = p then v else fs q

/-- The filesystem states at every crash point of `StateStore.save`
(`src/main.py`): before anything happens; with the temporary file
partially written (`tmp.write_text` interrupted); with the temporary file
fully written; and after `tmp.replace(self.file_path)`, which atomically
installs the serialized in-memory mapping. -/
def saveCrashStates (baseDir : String) (mem : Store) (fs0 : String → DocVal) :
    List (String → DocVal) :=
  [fs0,
   updFs fs0 (stateTmpOf baseDir) DocVal.partDoc,
   updFs fs0 (stateTmpOf baseDir) (DocVal.newDoc mem),
   updFs (updFs fs0 (stateTmpOf baseDir) DocVal.absent) (statePathOf baseDir)
     (DocVal.newDoc mem)]

/-- Last fingerprint paired with key `k` in listing order. -/
def lastFp (k : String) : List WorkItem → Option String
  | [] => none
  | it :: its =>
    match lastFp k its with
    | some e => some e
    | none => if it.key == k then some it.etag else none

/-- An all-success external outcome. -/
def allOk : Outcome := ⟨true, true, true⟩

/-- Constant all-success outcome schedule. -/
def allOkF : Nat → Outcome := fun _ => allOk

/-- A concrete configuration used by witnesses and counterexamples:
empty prefix, destination root `/dest`, deletion disabled. -/
def cfg0 : Cfg := ⟨"", "/dest", false⟩

/-- A well-formed component of a normalized relative path: nonempty, not
the single dot, and separator-free. -/
def goodComp (x : String) : Prop := ¬ x = "" ∧ ¬ x = "." ∧ ¬ '/' ∈ x.data

/-- Invariant of the (reversed) accumulator of the `normpath` component
loop: the parent-escape components `..` form a suffix of the reversed
accumulator (so a leading run of the final component list), and every
component is well formed. -/
def accInv (acc : List String) : Prop :=
  (∃ fr k, acc = fr ++ List.replicate k ".." ∧ ¬ ".." ∈ fr) ∧
    ∀ x ∈ acc, goodComp x

/-- C1 statement at one crash prefix: in the event trace of a successful
`worker_download`, the state entry is set only after the rename onto the
target, the store is persisted only after the entry is set, and any
prefix of the trace that stops before the `set` leaves both the in-memory
and the durable store without an entry for this `(key, etag)`. -/
def C1Prop (cfg : Cfg) (oc : Outcome) (mem dur0 : Store) (it : WorkItem)
    (target : String) (n : Nat) : Prop :=
  (Ev.setEntry it.key it.etag ∈ ((worker_download cfg oc mem it).2.take n) →
    Ev.renameFile (tmpOf target) target ∈ ((worker_download cfg oc mem it).2.take n)) ∧
  (Ev.saveStore ∈ ((worker_download cfg oc mem it).2.take n) →
    Ev.setEntry it.key it.etag ∈ ((worker_download cfg oc mem it).2.take n)) ∧
  (Ev.setEntry it.key it.etag ∉ ((worker_download cfg oc mem it).2.take n) →
    storeHas (applyEvsMD ⟨mem, dur0⟩ ((worker_download cfg oc mem it).2.take n)).mem
        it.key it.etag = false ∧
    storeHas (applyEvsMD ⟨mem, dur0⟩ ((worker_download cfg oc mem it).2.take n)).dur
        it.key it.etag = false)

/-- C3 statement: the temporary path is a sibling of the target and
distinct from it, object bytes are only ever written to the temporary
path, the only event that changes the target path is the single atomic
rename of the fully-written temporary file, and after any prefix of the
worker trace the target path holds either its previous content or the
complete new file. -/
def C3Prop (cfg : Cfg) (oc : Outcome) (mem : Store) (it : WorkItem)
    (target : String) : Prop :=
  ¬ tmpOf target = target ∧
  parentDir (tmpOf target) = parentDir target ∧
  (∀ q b, Ev.writeBytes q b ∈ (worker_download cfg oc mem it).2 → q = tmpOf target) ∧
  ((worker_download cfg oc mem it).2.filter (modifiesPath target) =
    if (worker_download cfg oc mem it).1 = WorkerOut.returned true then
      [Ev.renameFile (tmpOf target) target]
    else []) ∧
  (∀ fs0 : String → FsVal, ∀ n : Nat,
    applyFsEvs ((worker_download cfg oc mem it).2.take n) fs0 target = fs0 target ∨
    applyFsEvs ((worker_download cfg oc mem it).2.take n) fs0 target = FsVal.fullFile)

/-- Duplicate-identifier scenario: the state already records the second
occurrence's fingerprint. -/
def s0 : SyncSt := ⟨[("k", "e2")], [("k", "e2")]⟩

/-- Listing with a duplicated identifier carrying two fingerprints. -/
def listing0 : List WorkItem := [⟨"k", "e1"⟩, ⟨"k", "e2"⟩]

/-- Stale-entry scenario: the store holds an entry for an identifier that
the next listing no longer contains. -/
def s4 : SyncSt := ⟨[("k", "v"), ("stale", "x")], [("k", "v"), ("stale", "x")]⟩

/-- Listing for the stale-entry scenario. -/
def listing4 : List WorkItem := [⟨"k", "v"⟩]

/-- A concrete initial document filesystem. -/
def fs0c : String → DocVal := fun _ => DocVal.oldDoc

/-! ### String and path infrastructure lemmas -/

theorem strData_append (a b : String) : (a ++ b).data = a.data ++ b.data := rfl

theorem strExt {a b : String} (h : a.data = b.data) : a = b :=
  congrArg String.mk h

theorem lpre_append (l m : List Char) : lpre l (l ++ m) = true := by
  induction l with
  | nil => rfl
  | cons a as ih => simp [lpre, ih]

theorem segs_ne_nil (c : Char) (l : List Char) : ¬ segs c l = [] := by
  induction l with
  | nil => simp [segs]
  | cons a as ih =>
    cases h : segs c as with
    | nil => exact absurd h ih
    | cons s ss =>
      simp only [segs, h]
      split <;> simp

theorem segs_no_sep (c : Char) (l : List Char) : ∀ s ∈ segs c l, ¬ c ∈ s := by
  induction l with
  | nil =>
    intro s hs
    simp [segs] at hs
    simp [hs]
  | cons a as ih =>
    intro s hs
    cases h : segs c as with
    | nil => exact absurd h (segs_ne_nil c as)
    | cons t ts =>
      simp only [segs, h] at hs
      by_cases hac : a = c
      · simp [hac] at hs
        rcases hs with hs | hs | hs
        · simp [hs]
        · exact ih s (by simp [h, hs])
        · exact ih s (by simp [h]; exact Or.inr hs)
      · simp [hac] at hs
        rcases hs with hs | hs
        · subst hs
          intro hmem
          rcases List.mem_cons.mp hmem with h1 | h1
          · exact hac h1.symm
          · exact ih t (by simp [h]) h1
        · exact ih s (by simp [h]; exact Or.inr hs)

theorem segs_of_no_sep (c : Char) (m : List Char) (hm : ¬ c ∈ m) :
    segs c m = [m] := by
  induction m with
  | nil => rfl
  | cons a as ih =>
    have ha : ¬ a = c := by
      intro h
      exact hm (by simp [h])
    have has : ¬ c ∈ as := fun h => hm (by simp [h])
    simp only [segs, ih has]
    simp [ha]

theorem segs_append_sep (c : Char) (l m : List Char) :
    segs c (l ++ c :: m) = segs c l ++ segs c m := by
  induction l with
  | nil =>
    cases h : segs c m with
    | nil => exact absurd h (segs_ne_nil c m)
    | cons s ss => simp [segs, h]
  | cons a as ih =>
    cases h : segs c as with
    | nil => exact absurd h (segs_ne_nil c as)
    | cons s ss =>
      have hcons : segs c (as ++ c :: m) = s :: (ss ++ segs c m) := by
        rw [ih, h]
        simp
      simp only [List.cons_append, segs, hcons, h]
      by_cases hac : a = c <;> simp [hac, hcons]

theorem segs_append_no_sep (c : Char) (m : List Char) (hm : ¬ c ∈ m) :
    ∀ l : List Char, ∃ init last,
      segs c l = init ++ [last] ∧ segs c (l ++ m) = init ++ [last ++ m] := by
  intro l
  induction l with
  | nil => exact ⟨[], [], by simp [segs], by simp [segs_of_no_sep c m hm]⟩
  | cons a as ih =>
    rcases ih with ⟨init, last, h1, h2⟩
    cases init with
    | nil =>
      by_cases hac : a = c
      · exact ⟨[[]], last, by simp [segs, h1, hac], by simp [segs, h2, hac]⟩
      · exact ⟨[], a :: last, by simp [segs, h1, hac], by simp [segs, h2, hac]⟩
    | cons s ss =>
      have h1' : segs c as = s :: (ss ++ [last]) := by simp [h1]
      have h2' : segs c (as ++ m) = s :: (ss ++ [last ++ m]) := by simp [h2]
      by_cases hac : a = c
      · exact ⟨[] :: s :: ss, last, by simp [segs, h1', hac],
          by simp [segs, h2', hac]⟩
      · exact ⟨(a :: s) :: ss, last, by simp [segs, h1', hac],
          by simp [segs, h2', hac]⟩

theorem joinC_segs (c : Char) (l : List Char) : joinC c (segs c l) = l := by
  induction l with
  | nil => rfl
  | cons a as ih =>
    cases h : segs c as with
    | nil => exact absurd h (segs_ne_nil c as)
    | cons s ss =>
      rw [h] at ih
      by_cases hac : a = c
      · simp only [segs, h, hac]
        simp [joinC, ih]
      · simp only [segs, h]
        simp only [hac, if_neg, beq_iff_eq]
        cases ss with
        | nil =>
          simp only [joinC] at ih ⊢
          simp [ih]
        | cons s2 ss2 =>
          simp only [joinC] at ih ⊢
          simp [ih]

theorem joinC_concat (c : Char) (init : List (List Char)) (last : List Char) :
    ∃ pre, joinC c (init ++ [last]) = pre ++ last := by
  induction init with
  | nil => exact ⟨[], rfl⟩
  | cons s ss ih =>
    rcases ih with ⟨pre, hp⟩
    cases ss with
    | nil => exact ⟨s ++ [c], by simp [joinC]⟩
    | cons s2 ss2 =>
      rw [List.cons_append] at hp
      refine ⟨s ++ c :: pre, ?_⟩
      show s ++ c :: joinC c (s2 :: (ss2 ++ [last])) = (s ++ c :: pre) ++ last
      rw [hp]
      simp

theorem joinC_cons_ex (c : Char) (x : List Char) (xs : List (List Char)) :
    ∃ t, joinC c (x :: xs) = x ++ t := by
  cases xs with
  | nil => exact ⟨[], by simp [joinC]⟩
  | cons y ys => exact ⟨c :: joinC c (y :: ys), rfl⟩

theorem joinC_ne_nil (c : Char) (x : List Char) (xs : List (List Char))
    (hx : ¬ x = []) : ¬ joinC c (x :: xs) = [] := by
  rcases joinC_cons_ex c x xs with ⟨t, ht⟩
  rw [ht]
  cases x with
  | nil => exact absurd rfl hx
  | cons a as => simp

theorem segs_roundtrip (c : Char) :
    ∀ ls : List (List Char), ¬ ls = [] → (∀ x ∈ ls, ¬ c ∈ x) →
      segs c (joinC c ls) = ls := by
  intro ls
  induction ls with
  | nil => intro h; exact absurd rfl h
  | cons x xs ih =>
    intro _ hall
    cases xs with
    | nil =>
      simp only [joinC]
      exact segs_of_no_sep c x (hall x (by simp))
    | cons y ys =>
      have hx : ¬ c ∈ x := hall x (by simp)
      have hrest : segs c (joinC c (y :: ys)) = y :: ys :=
        ih (by simp) (fun z hz => hall z (by simp [hz]))
      calc segs c (x ++ c :: joinC c (y :: ys))
          = segs c x ++ segs c (joinC c (y :: ys)) := segs_append_sep c _ _
        _ = [x] ++ (y :: ys) := by rw [segs_of_no_sep c x hx, hrest]
        _ = x :: y :: ys := rfl

theorem pyName_suffix (p : String) : ∃ pre, p.data = pre ++ (pyName p).data := by
  rcases segs_append_no_sep '/' [] (by simp) p.data with ⟨init, last, h1, _⟩
  have hname : (pyName p).data = last := by
    unfold pyName
    rw [h1, List.getLastD_concat]
  rcases joinC_concat '/' init last with ⟨pre, hp⟩
  refine ⟨pre, ?_⟩
  rw [hname]
  calc p.data = joinC '/' (segs '/' p.data) := (joinC_segs '/' p.data).symm
    _ = joinC '/' (init ++ [last]) := by rw [h1]
    _ = pre ++ last := hp

theorem pyName_no_sep (m : String) (hm : ¬ '/' ∈ m.data) : pyName m = m := by
  unfold pyName
  rw [segs_of_no_sep '/' m.data hm]
  rfl

theorem sfxFrom_take_drop (nm : List Char) (o : Option Nat) :
    nm.take (nm.length - (sfxFrom nm o).length) ++ sfxFrom nm o = nm := by
  cases o with
  | none => simp [sfxFrom]
  | some i =>
    by_cases hc : 0 < i ∧ i < nm.length - 1
    · rw [show sfxFrom nm (some i) =
          (if 0 < i ∧ i < nm.length - 1 then nm.drop i else []) from rfl,
        if_pos hc]
      have hi : i ≤ nm.length := by omega
      rw [List.length_drop, Nat.sub_sub_self hi, List.take_append_drop]
    · rw [show sfxFrom nm (some i) =
          (if 0 < i ∧ i < nm.length - 1 then nm.drop i else []) from rfl,
        if_neg hc]
      simp

theorem pySuffix_take_drop (p : String) :
    (pyName p).data.take ((pyName p).data.length - (pySuffix p).data.length) ++
      (pySuffix p).data = (pyName p).data :=
  sfxFrom_take_drop (pyName p).data (rfindAux '.' (pyName p).data 0)

theorem pyWithSuffix_data (p suf : String) :
    (pyWithSuffix p suf).data =
      p.data.take (p.data.length - (pyName p).data.length) ++
        ((pyName p).data.take ((pyName p).data.length - (pySuffix p).data.length) ++
          suf.data) := rfl

theorem pyWithSuffix_sfx (p suf : String) :
    pyWithSuffix p (pySuffix p ++ suf) = p ++ suf := by
  rcases pyName_suffix p with ⟨pre, hpre⟩
  apply strExt
  rw [pyWithSuffix_data]
  have hplen : p.data.length - (pyName p).data.length = pre.length := by
    rw [hpre, List.length_append]
    omega
  have hA : p.data.take (p.data.length - (pyName p).data.length) = pre := by
    rw [hplen, hpre, List.take_left]
  have hBC : (pyName p).data.take ((pyName p).data.length - (pySuffix p).data.length) ++
      ((pySuffix p).data ++ suf.data) = (pyName p).data ++ suf.data := by
    rw [← List.append_assoc, pySuffix_take_drop]
  rw [strData_append (pySuffix p) suf, hBC, hA, strData_append p suf, hpre]
  simp

theorem tmpOf_eq (t : String) : tmpOf t = t ++ ".part" := pyWithSuffix_sfx t ".part"

theorem tmpOf_ne (t : String) : ¬ tmpOf t = t := by
  rw [tmpOf_eq]
  intro h
  have hlen : (t ++ ".part").data.length = t.data.length := by rw [h]
  rw [strData_append, List.length_append,
    show (".part" : String).data.length = 5 from rfl] at hlen
  omega

theorem parentDir_concat (p m : String) (hm : ¬ '/' ∈ m.data) :
    parentDir (p ++ m) = parentDir p := by
  rcases segs_append_no_sep '/' m.data hm p.data with ⟨init, last, h1, h2⟩
  unfold parentDir
  rw [strData_append, h2, h1, List.dropLast_concat, List.dropLast_concat]

theorem parentDir_tmpOf (t : String) : parentDir (tmpOf t) = parentDir t := by
  rw [tmpOf_eq]
  exact parentDir_concat t ".part" (by decide)

theorem dirSlash_data (b m : String) :
    (b ++ "/" ++ m).data = b.data ++ '/' :: m.data := by
  have h1 : (b ++ "/" ++ m).data = (b.data ++ ['/']) ++ m.data := rfl
  rw [h1, List.append_assoc]
  rfl

theorem pyName_concat (b m : String) (hm : ¬ '/' ∈ m.data) :
    pyName (b ++ "/" ++ m) = m := by
  unfold pyName
  rw [dirSlash_data, segs_append_sep, segs_of_no_sep '/' m.data hm,
    List.getLastD_concat]

theorem pySuffix_concat (b m : String) (hm : ¬ '/' ∈ m.data) :
    pySuffix (b ++ "/" ++ m) = pySuffix m := by
  unfold pySuffix
  rw [pyName_concat b m hm, pyName_no_sep m hm]

theorem pyWithSuffix_concat (b m suf : String) (hm : ¬ '/' ∈ m.data) :
    pyWithSuffix (b ++ "/" ++ m) suf = b ++ "/" ++ pyWithSuffix m suf := by
  apply strExt
  rw [pyWithSuffix_data,
    show (b ++ "/" ++ pyWithSuffix m suf).data =
      (b.data ++ ['/']) ++ (pyWithSuffix m suf).data from rfl,
    pyWithSuffix_data, pyName_concat b m hm, pySuffix_concat b m hm,
    pyName_no_sep m hm,
    show (b ++ "/" ++ m).data = (b.data ++ ['/']) ++ m.data from rfl]
  have hlen : ((b.data ++ ['/']) ++ m.data).length - m.data.length =
      (b.data ++ ['/']).length := by
    rw [List.length_append]
    omega
  rw [hlen, List.take_left, Nat.sub_self, List.take_zero, List.nil_append,
    List.append_assoc]

theorem stateTmpOf_eq (b : String) : stateTmpOf b = b ++ "/" ++ "state.tmp" := by
  unfold stateTmpOf statePathOf
  rw [pyWithSuffix_concat b "state.json" ".tmp" (by decide)]
  rfl

/-! ### `normpath` component invariant -/

theorem strMk_eq_empty_iff (l : List Char) : (⟨l⟩ : String) = "" ↔ l = [] :=
  ⟨fun h => congrArg String.data h, fun h => by rw [h]⟩

theorem normStep_inv (b : Bool) (comp : String) (hc : ¬ '/' ∈ comp.data)
    (acc : List String) (h : accInv acc) : accInv (normStep b acc comp) := by
  rcases h with ⟨⟨fr, k, hacc, hfr⟩, hgood⟩
  unfold normStep
  by_cases h1 : (comp == "" || comp == ".") = true
  · rw [if_pos h1]
    exact ⟨⟨fr, k, hacc, hfr⟩, hgood⟩
  · rw [if_neg h1]
    simp only [Bool.or_eq_true, beq_iff_eq] at h1
    push_neg at h1
    by_cases h2 : (comp != ".." || (!b && acc.isEmpty) || acc.head? == some "..") = true
    · rw [if_pos h2]
      refine ⟨?_, ?_⟩
      · by_cases hdd : comp = ".."
        · subst hdd
          by_cases hemp : acc = []
          · subst hemp
            refine ⟨[], 1, by simp, ?_⟩
            intro hmem
            simp at hmem
          · have hhead : acc.head? = some ".." := by
              cases hh : (acc.head? == some "..") with
              | false =>
                exfalso
                rw [hh] at h2
                simp only [bne_self_eq_false, Bool.false_or, Bool.or_false,
                  Bool.and_eq_true, Bool.not_eq_true', List.isEmpty_iff] at h2
                exact hemp h2.2
              | true => exact beq_iff_eq.mp hh
            have hfrnil : fr = [] := by
              cases fr with
              | nil => rfl
              | cons f fr' =>
                rw [hacc] at hhead
                simp at hhead
                exact absurd (hhead ▸ List.mem_cons_self f fr') (hhead ▸ hfr)
            refine ⟨[], k + 1, ?_, by simp⟩
            rw [hacc, hfrnil]
            simp [List.replicate_succ]
        · refine ⟨comp :: fr, k, by simp [hacc], ?_⟩
          intro hmem
          rcases List.mem_cons.mp hmem with hx | hx
          · exact hdd hx.symm
          · exact hfr hx
      · intro x hx
        rcases List.mem_cons.mp hx with hx | hx
        · subst hx
          exact ⟨h1.1, h1.2, hc⟩
        · exact hgood x hx
    · rw [if_neg h2]
      have hheadne : ¬ acc.head? = some ".." := by
        intro hh
        exact h2 (by simp [hh])
      cases hacceq : acc with
      | nil => exact ⟨⟨[], 0, by simp, by simp⟩, by simp⟩
      | cons a as =>
        have hane : ¬ a = ".." := by
          intro ha
          apply hheadne
          rw [hacceq, ha]
          rfl
        have hfrcons : ∃ fr', fr = a :: fr' ∧ as = fr' ++ List.replicate k ".." := by
          cases fr with
          | nil =>
            rw [hacceq] at hacc
            simp only [List.nil_append] at hacc
            cases k with
            | zero => simp at hacc
            | succ k' =>
              rw [List.replicate_succ] at hacc
              injection hacc with hx _
              exact absurd hx hane
          | cons f fr' =>
            rw [hacceq] at hacc
            rw [List.cons_append] at hacc
            injection hacc with hx hy
            exact ⟨fr', by rw [hx], hy⟩
        rcases hfrcons with ⟨fr', hfr1, hfr2⟩
        refine ⟨⟨fr', k, by simp [hacceq, hfr2], ?_⟩, ?_⟩
        · intro hmem
          exact hfr (by rw [hfr1]; exact List.mem_cons_of_mem a hmem)
        · intro x hx
          exact hgood x (by
            rw [hacceq]
            exact List.mem_cons_of_mem a (by simpa using hx))

theorem foldl_normStep_inv (b : Bool) (comps : List String) :
    ∀ acc : List String, (∀ x ∈ comps, ¬ '/' ∈ x.data) → accInv acc →
      accInv (comps.foldl (normStep b) acc) := by
  induction comps with
  | nil =>
    intro acc _ h
    exact h
  | cons x xs ih =>
    intro acc hc h
    exact ih _ (fun y hy => hc y (by simp [hy]))
      (normStep_inv b x (hc x (by simp)) acc h)

theorem normpath_eq (p : String) (hp : ¬ p = "") :
    normpath p =
      if (⟨List.replicate (normParts p).1 '/' ++
            joinC '/' ((normParts p).2.map String.data)⟩ : String) == "" then "."
      else ⟨List.replicate (normParts p).1 '/' ++
            joinC '/' ((normParts p).2.map String.data)⟩ := by
  unfold normpath
  rw [if_neg (by simpa using hp)]

theorem normpath_rel (r : String) (h1 : pyStarts "/" (normpath r) = false)
    (h2 : pyStarts ".." (normpath r) = false) :
    normpath r = "." ∨
      ∃ ls : List String, ¬ ls = [] ∧ (∀ x ∈ ls, goodComp x ∧ ¬ x = "..") ∧
        (normpath r).data = joinC '/' (ls.map String.data) := by
  by_cases hr : r = ""
  · left
    rw [hr]
    rfl
  · have hinv : accInv (((segs '/' r.data).map (fun l => (⟨l⟩ : String))).foldl
        (normStep ((initSlashes r.data) != 0)) []) := by
      refine foldl_normStep_inv _ _ [] ?_ ⟨⟨[], 0, by simp, by simp⟩, by simp⟩
      intro x hx
      rcases List.mem_map.mp hx with ⟨l, hl, hxl⟩
      rw [← hxl]
      exact segs_no_sep '/' r.data l hl
    rcases hinv with ⟨⟨fr, k2, hacc, hfr⟩, hgoodacc⟩
    have hp1 : (normParts r).1 = initSlashes r.data := rfl
    have hp2 : (normParts r).2 = List.replicate k2 ".." ++ fr.reverse := by
      show (((segs '/' r.data).map (fun l => (⟨l⟩ : String))).foldl
        (normStep ((initSlashes r.data) != 0)) []).reverse = _
      rw [hacc]
      simp
    have hgood' : ∀ x ∈ (normParts r).2, goodComp x := by
      intro x hx
      apply hgoodacc
      have hx' : x ∈ (((segs '/' r.data).map (fun l => (⟨l⟩ : String))).foldl
          (normStep ((initSlashes r.data) != 0)) []).reverse := hx
      simpa using hx'
    have hdata : ¬ (List.replicate (normParts r).1 '/' ++
        joinC '/' ((normParts r).2.map String.data)) = [] →
        (normpath r).data = List.replicate (normParts r).1 '/' ++
          joinC '/' ((normParts r).2.map String.data) := by
      intro hcond
      rw [normpath_eq r hr,
        if_neg (fun hb => hcond (congrArg String.data (beq_iff_eq.mp hb)))]
    have hdot : (List.replicate (normParts r).1 '/' ++
        joinC '/' ((normParts r).2.map String.data)) = [] → normpath r = "." := by
      intro hcond
      rw [normpath_eq r hr,
        if_pos (beq_iff_eq.mpr ((strMk_eq_empty_iff _).mpr hcond))]
    cases hk : initSlashes r.data with
    | succ k' =>
      exfalso
      have hne : ¬ (List.replicate (normParts r).1 '/' ++
          joinC '/' ((normParts r).2.map String.data)) = [] := by
        rw [hp1, hk, List.replicate_succ]
        simp
      have hd := hdata hne
      rw [hp1, hk, List.replicate_succ] at hd
      rw [show pyStarts "/" (normpath r) = lpre ['/'] (normpath r).data from rfl,
        hd] at h1
      simp [lpre] at h1
    | zero =>
      cases hk2 : k2 with
      | succ k2' =>
        exfalso
        have hncc : (normParts r).2 = ".." :: (List.replicate k2' ".." ++ fr.reverse) := by
          rw [hp2, hk2, List.replicate_succ, List.cons_append]
        rcases joinC_cons_ex '/' (".." : String).data
            ((List.replicate k2' ".." ++ fr.reverse).map String.data) with ⟨t, ht⟩
        have hj : joinC '/' ((normParts r).2.map String.data) = ['.', '.'] ++ t := by
          rw [hncc, List.map_cons]
          exact ht
        have hne : ¬ (List.replicate (normParts r).1 '/' ++
            joinC '/' ((normParts r).2.map String.data)) = [] := by
          rw [hp1, hk, hj]
          simp
        have hd := hdata hne
        rw [hp1, hk, hj, List.replicate, List.nil_append] at hd
        rw [show pyStarts ".." (normpath r) = lpre ['.', '.'] (normpath r).data from rfl,
          hd, lpre_append] at h2
        simp at h2
      | zero =>
        have hncfr : (normParts r).2 = fr.reverse := by
          rw [hp2, hk2]
          simp
        cases hfrr : fr.reverse with
        | nil =>
          left
          apply hdot
          rw [hp1, hk, hncfr, hfrr]
          rfl
        | cons x xs =>
          right
          refine ⟨x :: xs, by simp, ?_, ?_⟩
          · intro y hy
            have hyg : goodComp y := hgood' y (by rw [hncfr, hfrr]; exact hy)
            refine ⟨hyg, ?_⟩
            intro hydd
            apply hfr
            rw [← List.mem_reverse, hfrr, ← hydd]
            exact hy
          · have hxne : ¬ x.data = [] := by
              intro hxe
              exact (hgood' x (by rw [hncfr, hfrr]; simp)).1 (strExt hxe)
            rcases joinC_cons_ex '/' x.data (xs.map String.data) with ⟨t, ht⟩
            have hne : ¬ (List.replicate (normParts r).1 '/' ++
                joinC '/' ((normParts r).2.map String.data)) = [] := by
              rw [hp1, hk, hncfr, hfrr, List.replicate, List.nil_append,
                List.map_cons, ht]
              simp [hxne]
            have hd := hdata hne
            rw [hp1, hk, hncfr, hfrr, List.replicate, List.nil_append] at hd
            exact hd

/-! ### Path mapper theorems -/

theorem s3_error_iff (key pfx dest : String) :
    isErr (s3_key_to_local_path key pfx dest) = pyStarts ".." (relOf key pfx) := by
  unfold s3_key_to_local_path
  cases h : pyStarts ".." (relOf key pfx) with
  | true =>
    rw [if_pos h]
    rfl
  | false =>
    rw [if_neg (by simp [h])]
    rfl

theorem s3_ok_eq (key pfx dest : String)
    (h : pyStarts ".." (relOf key pfx) = false) :
    s3_key_to_local_path key pfx dest = Except.ok (pathJoin dest (relOf key pfx)) := by
  unfold s3_key_to_local_path
  rw [if_neg (by simp [h])]

theorem s3_ok_not_dd (key pfx dest p : String)
    (hok : s3_key_to_local_path key pfx dest = Except.ok p) :
    pyStarts ".." (relOf key pfx) = false ∧ p = pathJoin dest (relOf key pfx) := by
  cases h : pyStarts ".." (relOf key pfx) with
  | true =>
    exfalso
    unfold s3_key_to_local_path at hok
    rw [if_pos h] at hok
    exact Except.noConfusion hok
  | false =>
    refine ⟨rfl, ?_⟩
    rw [s3_ok_eq key pfx dest h] at hok
    exact (Except.ok.inj hok).symm

theorem pathJoin_dot (base : String) : pathJoin base "." = base := by
  unfold pathJoin
  rw [if_neg (by decide), if_pos (by decide)]

theorem pathJoin_rel (base child : String) (h1 : pyStarts "/" child = false)
    (h2 : ¬ child = ".") : pathJoin base child = base ++ "/" ++ child := by
  unfold pathJoin
  rw [if_neg (by simp [h1]), if_neg (by simp [h2])]

theorem insideRoot_self (root : String) : insideRoot root root = true := by
  unfold insideRoot
  simp

theorem contains_eq_false_of_not_mem {α : Type} [BEq α] [LawfulBEq α]
    {l : List α} {a : α} (h : ¬ a ∈ l) : l.contains a = false := by
  cases hc : l.contains a with
  | false => rfl
  | true => exact absurd (List.elem_iff.mp hc) h

theorem joinC_good_ne_dot (ls : List String) (hne : ¬ ls = [])
    (hgood : ∀ x ∈ ls, goodComp x) :
    ¬ joinC '/' (ls.map String.data) = ['.'] := by
  cases ls with
  | nil => exact absurd rfl hne
  | cons x xs =>
    cases xs with
    | nil =>
      simp only [List.map_cons, List.map_nil, joinC]
      intro h
      exact (hgood x (by simp)).2.1 (strExt h)
    | cons y ys =>
      simp only [List.map_cons, joinC]
      intro h
      cases hx : x.data with
      | nil => exact (hgood x (by simp)).1 (strExt hx)
      | cons a as =>
        rw [hx] at h
        simp at h

/-- C2 (amended core): a successfully mapped path whose normalized
relative component is not absolute lies inside the destination root. -/
theorem c2_mapper_inside_root (key pfx dest p : String)
    (hok : s3_key_to_local_path key pfx dest = Except.ok p)
    (habs : pyStarts "/" (relOf key pfx) = false) :
    insideRoot dest p = true := by
  rcases s3_ok_not_dd key pfx dest p hok with ⟨hdd, hp⟩
  have hrel := normpath_rel (normSlashes (stripPfx key pfx)) habs hdd
  rcases hrel with hdot | ⟨ls, hne, hgood, hdata⟩
  · rw [hp, show relOf key pfx = normpath (normSlashes (stripPfx key pfx)) from rfl,
      hdot, pathJoin_dot]
    exact insideRoot_self dest
  · have hreldata : (relOf key pfx).data = joinC '/' (ls.map String.data) := hdata
    have hrelne : ¬ relOf key pfx = "." := by
      intro hh
      have hdot' : (relOf key pfx).data = ['.'] := by
        rw [hh]
      rw [hreldata] at hdot'
      exact joinC_good_ne_dot ls hne (fun x hx => (hgood x hx).1) hdot'
    rw [hp, pathJoin_rel dest _ habs hrelne]
    have hA : pyStarts (dest ++ "/") (dest ++ "/" ++ relOf key pfx) = true := by
      rw [show pyStarts (dest ++ "/") (dest ++ "/" ++ relOf key pfx) =
        lpre (dest ++ "/").data ((dest ++ "/").data ++ (relOf key pfx).data) from rfl]
      exact lpre_append _ _
    have hdrop : (dest ++ "/" ++ relOf key pfx).data.drop (dest.data.length + 1) =
        (relOf key pfx).data := by
      rw [show (dest ++ "/" ++ relOf key pfx).data =
        (dest.data ++ ['/']) ++ (relOf key pfx).data from rfl]
      exact List.drop_left' (by simp)
    have hC : (segs '/' ((dest ++ "/" ++ relOf key pfx).data.drop
        (dest.data.length + 1))).contains ['.', '.'] = false := by
      rw [hdrop, hreldata,
        segs_roundtrip '/' (ls.map String.data) (by simpa using hne)
          (by
            intro y hy
            rcases List.mem_map.mp hy with ⟨x, hx, hxy⟩
            rw [← hxy]
            exact (hgood x hx).1.2.2)]
      apply contains_eq_false_of_not_mem
      intro hmem
      rcases List.mem_map.mp hmem with ⟨x, hx, hxd⟩
      exact (hgood x hx).2 (strExt hxd)
    unfold insideRoot
    rw [hA, hC]
    simp

/-! ### State store lemmas -/

theorem storeGet_set_self (st : Store) (k e : String) :
    storeGet (storeSet st k e) k = some e := by
  unfold storeSet storeGet
  simp

theorem storeGet_filter_ne (st : Store) (k q : String) (h : ¬ k = q) :
    storeGet (List.filter (fun kv => !(kv.1 == k)) st) q = storeGet st q := by
  induction st with
  | nil => rfl
  | cons kv rest ih =>
    rcases kv with ⟨k1, v1⟩
    by_cases h1 : k1 = k
    · subst h1
      have hkq : (k1 == q) = false := beq_eq_false_iff_ne.mpr h
      simp [List.filter_cons, storeGet, hkq, ih]
    · have hk1 : (k1 == k) = false := beq_eq_false_iff_ne.mpr h1
      simp [List.filter_cons, hk1, storeGet, ih]

theorem storeGet_set_ne (st : Store) (k e q : String) (h : ¬ k = q) :
    storeGet (storeSet st k e) q = storeGet st q := by
  unfold storeSet
  have hkq : (k == q) = false := beq_eq_false_iff_ne.mpr h
  simp only [storeGet, hkq]
  rw [if_neg (by simp)]
  exact storeGet_filter_ne st k q h

theorem storeHas_iff (st : Store) (k e : String) :
    storeHas st k e = true ↔ storeGet st k = some e := by
  unfold storeHas
  cases hg : storeGet st k with
  | none => simp
  | some v => simp [beq_iff_eq]

theorem storeHas_false_iff (st : Store) (k e : String) :
    storeHas st k e = false ↔ ¬ storeGet st k = some e := by
  rw [← storeHas_iff]
  cases storeHas st k e <;> simp

theorem storeGet_cons_ne (k1 v1 : String) (rest : Store) (k : String)
    (h : ¬ k1 = k) : storeGet ((k1, v1) :: rest) k = storeGet rest k := by
  simp only [storeGet]
  rw [if_neg (by simp [h])]

theorem storeGet_cons_self (k1 v1 : String) (rest : Store) :
    storeGet ((k1, v1) :: rest) k1 = some v1 := by
  simp only [storeGet]
  rw [if_pos (by simp)]

theorem storeGet_prune (st : Store) (keep : List String) (k : String)
    (h : keep.contains k = true) :
    storeGet (storePrune st keep) k = storeGet st k := by
  induction st with
  | nil => rfl
  | cons kv rest ih =>
    rcases kv with ⟨k1, v1⟩
    unfold storePrune at ih ⊢
    rw [List.filter_cons]
    by_cases h1 : (keep.contains k1) = true
    · rw [if_pos h1]
      by_cases h2 : k1 = k
      · subst h2
        rw [storeGet_cons_self, storeGet_cons_self]
      · rw [storeGet_cons_ne k1 v1 _ k h2, storeGet_cons_ne k1 v1 _ k h2]
        exact ih
    · rw [if_neg h1]
      have h2 : ¬ k1 = k := fun he => h1 (he ▸ h)
      rw [storeGet_cons_ne k1 v1 _ k h2]
      exact ih

/-! ### Worker equations -/

theorem worker_skip (cfg : Cfg) (oc : Outcome) (mem : Store) (it : WorkItem)
    (h : storeHas mem it.key it.etag = true) :
    worker_download cfg oc mem it = (WorkerOut.returned false, []) := by
  unfold worker_download
  rw [if_pos h]

theorem worker_raise (cfg : Cfg) (oc : Outcome) (mem : Store) (it : WorkItem)
    (msg : String) (h : storeHas mem it.key it.etag = false)
    (hmap : s3_key_to_local_path it.key cfg.pfx cfg.destDir = Except.error msg) :
    worker_download cfg oc mem it = (WorkerOut.raised msg, []) := by
  unfold worker_download
  rw [if_neg (by simp [h]), hmap]

theorem worker_ok (cfg : Cfg) (oc : Outcome) (mem : Store) (it : WorkItem)
    (target : String) (h : storeHas mem it.key it.etag = false)
    (hmap : s3_key_to_local_path it.key cfg.pfx cfg.destDir = Except.ok target) :
    worker_download cfg oc mem it = workerFetch cfg oc it target := by
  unfold worker_download
  rw [if_neg (by simp [h]), hmap]

theorem workerFetch_success (cfg : Cfg) (oc : Outcome) (it : WorkItem)
    (target : String) (hdl : oc.downloadOk = true) (hrn : oc.renameOk = true) :
    workerFetch cfg oc it target =
      (WorkerOut.returned true,
        [Ev.mkdirP (parentDir (tmpOf target)), Ev.writeBytes (tmpOf target) true,
         Ev.mkdirP (parentDir target), Ev.renameFile (tmpOf target) target,
         Ev.setEntry it.key it.etag, Ev.saveStore] ++
        (if cfg.deleteAfterDownload then
          (if oc.deleteOk then [Ev.deleteRemote it.key]
           else [Ev.deleteRemote it.key, Ev.logWarn ("Failed to delete " ++ it.key)])
         else [])) := by
  unfold workerFetch
  rw [if_pos hdl, if_pos hrn]
  cases hdel : cfg.deleteAfterDownload with
  | false =>
    rw [if_neg (by simp), if_neg (by simp)]
    rfl
  | true =>
    rw [if_pos rfl, if_pos rfl]
    cases hdo : oc.deleteOk with
    | false =>
      rw [if_neg (by simp), if_neg (by simp)]
      rfl
    | true =>
      rw [if_pos rfl, if_pos rfl]
      rfl

theorem workerFetch_dlFail (cfg : Cfg) (oc : Outcome) (it : WorkItem)
    (target : String) (hdl : oc.downloadOk = false) :
    workerFetch cfg oc it target =
      (WorkerOut.returned false,
       [Ev.mkdirP (parentDir (tmpOf target)), Ev.writeBytes (tmpOf target) false,
        Ev.logError ("Failed to download " ++ it.key),
        Ev.unlinkTmp (tmpOf target)]) := by
  unfold workerFetch
  rw [if_neg (by simp [hdl])]

theorem workerFetch_rnFail (cfg : Cfg) (oc : Outcome) (it : WorkItem)
    (target : String) (hdl : oc.downloadOk = true) (hrn : oc.renameOk = false) :
    workerFetch cfg oc it target =
      (WorkerOut.returned false,
       [Ev.mkdirP (parentDir (tmpOf target)), Ev.writeBytes (tmpOf target) true,
        Ev.mkdirP (parentDir target),
        Ev.logError ("Failed to download " ++ it.key),
        Ev.unlinkTmp (tmpOf target)]) := by
  unfold workerFetch
  rw [if_pos hdl, if_neg (by simp [hrn])]

theorem bool_false_of_not_true {b : Bool} (h : ¬ b = true) : b = false := by
  cases b with
  | false => rfl
  | true => exact absurd rfl h

/-- C1: on the success path of `worker_download` the trace performs the
rename before `state.set` and `state.set` before `state.save`; every
prefix of the trace that stops before the `set` leaves the in-memory and
the durable store without an entry for this `(key, etag)`. -/
theorem c1_worker_commit_order (cfg : Cfg) (oc : Outcome) (mem dur0 : Store)
    (it : WorkItem) (target : String) (n : Nat)
    (hmem : storeHas mem it.key it.etag = false)
    (hdur : storeHas dur0 it.key it.etag = false)
    (hmap : s3_key_to_local_path it.key cfg.pfx cfg.destDir = Except.ok target)
    (hdl : oc.downloadOk = true) (hrn : oc.renameOk = true) :
    C1Prop cfg oc mem dur0 it target n := by
  unfold C1Prop
  rw [worker_ok cfg oc mem it target hmem hmap,
    workerFetch_success cfg oc it target hdl hrn]
  cases hdel : cfg.deleteAfterDownload <;> cases hdo : oc.deleteOk <;>
    rcases n with _ | _ | _ | _ | _ | _ | _ | _ | _ | n <;>
      simp [applyEvsMD, applyEvMD, hmem, hdur]

/-- C1 witness at a concrete item and crash point. -/
theorem c1_worker_commit_order_witness :
    C1Prop cfg0 allOk [] [] ⟨"a/file1.txt", "v1"⟩ "/dest/a/file1.txt" 4 :=
  c1_worker_commit_order cfg0 allOk [] [] ⟨"a/file1.txt", "v1"⟩ "/dest/a/file1.txt" 4
    rfl rfl rfl rfl rfl

/-- C3 (amended): the temporary path of a work item is a sibling of its
own target path, distinct from it; object bytes are written only to the
temporary path; the only change ever applied to the target path is the
single atomic rename of the fully-written temporary file; and after any
prefix of the worker trace the target holds either its previous content
or the complete new file. -/
theorem c3_temp_sibling_atomic (cfg : Cfg) (oc : Outcome) (mem : Store)
    (it : WorkItem) (target : String)
    (hmap : s3_key_to_local_path it.key cfg.pfx cfg.destDir = Except.ok target) :
    C3Prop cfg oc mem it target := by
  have hne : ¬ target = tmpOf target := fun h => tmpOf_ne target h.symm
  have hbeq : ((tmpOf target) == target) = false :=
    beq_eq_false_iff_ne.mpr (tmpOf_ne target)
  unfold C3Prop
  by_cases hmem : storeHas mem it.key it.etag = true
  · rw [worker_skip cfg oc mem it hmem]
    refine ⟨tmpOf_ne target, parentDir_tmpOf target, by simp, by simp, ?_⟩
    intro fs0 n
    left
    simp [applyFsEvs]
  · rw [worker_ok cfg oc mem it target (bool_false_of_not_true hmem) hmap]
    cases hdl : oc.downloadOk with
    | false =>
      rw [workerFetch_dlFail cfg oc it target hdl]
      refine ⟨tmpOf_ne target, parentDir_tmpOf target, ?_, ?_, ?_⟩
      · intro q b hqb
        simp at hqb
        exact hqb.1
      · simp [modifiesPath, List.filter_cons, hbeq]
      · intro fs0 n
        rcases n with _ | _ | _ | _ | n <;>
          simp [applyFsEvs, applyFsEv, hne]
    | true =>
      cases hrn : oc.renameOk with
      | false =>
        rw [workerFetch_rnFail cfg oc it target hdl hrn]
        refine ⟨tmpOf_ne target, parentDir_tmpOf target, ?_, ?_, ?_⟩
        · intro q b hqb
          simp at hqb
          exact hqb.1
        · simp [modifiesPath, List.filter_cons, hbeq]
        · intro fs0 n
          rcases n with _ | _ | _ | _ | _ | n <;>
            simp [applyFsEvs, applyFsEv, hne]
      | true =>
        rw [workerFetch_success cfg oc it target hdl hrn]
        cases hdel : cfg.deleteAfterDownload <;> cases hdo : oc.deleteOk <;>
          (refine ⟨tmpOf_ne target, parentDir_tmpOf target, ?_, ?_, ?_⟩
           · intro q b hqb
             simp at hqb
             exact hqb.1
           · simp [modifiesPath, List.filter_cons, hbeq]
           · intro fs0 n
             rcases n with _ | _ | _ | _ | _ | _ | _ | _ | _ | n <;>
               simp [applyFsEvs, applyFsEv, hne])

/-- C3 witness at a concrete item. -/
theorem c3_temp_sibling_atomic_witness :
    C3Prop cfg0 allOk [] ⟨"a/file1.txt", "v1"⟩ "/dest/a/file1.txt" :=
  c3_temp_sibling_atomic cfg0 allOk [] ⟨"a/file1.txt", "v1"⟩ "/dest/a/file1.txt" rfl

/-- C3 counterexample: the temporary path of the work item
`a/file.txt` coincides with the final target path of the legitimate work
item `a/file.txt.part`, so the temporary path is not distinct from every
work item's target path. -/
theorem c3_part_key_collision :
    s3_key_to_local_path "a/file.txt" "" "/dest" = Except.ok "/dest/a/file.txt" ∧
    s3_key_to_local_path "a/file.txt.part" "" "/dest" =
      Except.ok (tmpOf "/dest/a/file.txt") :=
  ⟨rfl, rfl⟩

/-- C2 counterexample: identifier `/etc/passwd` (empty prefix) maps
successfully to the absolute path `/etc/passwd`, which lies outside the
destination root `/dest` — the pathlib join discards the root for an
absolute right operand. -/
theorem c2_absolute_key_escapes :
    s3_key_to_local_path "/etc/passwd" "" "/dest" = Except.ok "/etc/passwd" ∧
    insideRoot "/dest" "/etc/passwd" = false :=
  ⟨rfl, rfl⟩

/-- C2 witness at a concrete relative identifier. -/
theorem c2_mapper_inside_root_witness :
    insideRoot "/dest" "/dest/a/file1.txt" = true :=
  c2_mapper_inside_root "a/file1.txt" "" "/dest" "/dest/a/file1.txt" rfl rfl

/-- C10: `s3_key_to_local_path` raises exactly when the normalized
relative path begins with the two-character string `..`; consequently the
legitimate dotdot-prefixed name `..config` raises even though its
would-be local path lies inside the destination root, and the worker
raises on it with no filesystem effect, so such an object is never
materialized. -/
theorem c10_dotdot_string_check :
    (∀ key pfx dest : String,
      isErr (s3_key_to_local_path key pfx dest) = pyStarts ".." (relOf key pfx)) ∧
    s3_key_to_local_path "..config" "" "/dest" =
      Except.error "Unsafe key path: ..config" ∧
    insideRoot "/dest" (pathJoin "/dest" (relOf "..config" "")) = true ∧
    worker_download cfg0 allOk [] ⟨"..config", "v"⟩ =
      (WorkerOut.raised "Unsafe key path: ..config", []) :=
  ⟨s3_error_iff, rfl, rfl, rfl⟩

/-- C10 witness: the characterization applied at the concrete name. -/
theorem c10_dotdot_string_check_witness :
    isErr (s3_key_to_local_path "..config" "" "/dest") =
      pyStarts ".." (relOf "..config" "") :=
  c10_dotdot_string_check.1 "..config" "" "/dest"

/-- C5 (amended): a caught download or rename failure makes the worker
return `False`, log the error, best-effort delete the temporary file and
leave the store untouched; an unsafe-path error escapes the worker
uncaught with an empty event trace (so nothing is logged and no failure
value is returned), also leaving the store untouched; and a raised worker
does not disturb the processing of the remaining work items of the
pool. -/
theorem c5_item_failure_isolation (cfg : Cfg) (oc : Outcome) (mem : Store)
    (it : WorkItem) :
    (∀ msg, s3_key_to_local_path it.key cfg.pfx cfg.destDir = Except.error msg →
      storeHas mem it.key it.etag = false →
      worker_download cfg oc mem it = (WorkerOut.raised msg, [])) ∧
    (∀ target, s3_key_to_local_path it.key cfg.pfx cfg.destDir = Except.ok target →
      storeHas mem it.key it.etag = false →
      (oc.downloadOk = false ∨ oc.renameOk = false) →
      (worker_download cfg oc mem it).1 = WorkerOut.returned false ∧
      Ev.logError ("Failed to download " ++ it.key) ∈ (worker_download cfg oc mem it).2 ∧
      Ev.unlinkTmp (tmpOf target) ∈ (worker_download cfg oc mem it).2 ∧
      (∀ s : SyncSt, applyEvsMD s (worker_download cfg oc mem it).2 = s)) ∧
    (∀ (msg : String) (outs : Nat → Outcome) (s : SyncSt) (its : List WorkItem),
      worker_download cfg (outs 0) s.mem it = (WorkerOut.raised msg, []) →
      fetchPhase cfg outs s (it :: its) =
        ((WorkerOut.raised msg, []) ::
           (fetchPhase cfg (fun n => outs (n + 1)) s its).1,
         (fetchPhase cfg (fun n => outs (n + 1)) s its).2)) := by
  refine ⟨?_, ?_, ?_⟩
  · intro msg hmap hmem
    exact worker_raise cfg oc mem it msg hmem hmap
  · intro target hmap hmem hfail
    cases hdlc : oc.downloadOk with
    | false =>
      rw [worker_ok cfg oc mem it target hmem hmap,
        workerFetch_dlFail cfg oc it target hdlc]
      exact ⟨rfl, by simp, by simp, fun s => by simp [applyEvsMD, applyEvMD]⟩
    | true =>
      have hrnf : oc.renameOk = false := by
        rcases hfail with h | h
        · rw [hdlc] at h
          exact absurd h (by simp)
        · exact h
      rw [worker_ok cfg oc mem it target hmem hmap,
        workerFetch_rnFail cfg oc it target hdlc hrnf]
      exact ⟨rfl, by simp, by simp, fun s => by simp [applyEvsMD, applyEvMD]⟩
  · intro msg outs s its hw
    conv_lhs => rw [fetchPhase]
    rw [hw]
    rfl

/-- C5 witness: a failing download at a concrete item is reported as a
plain `False`. -/
theorem c5_item_failure_isolation_witness :
    (worker_download cfg0 ⟨false, true, true⟩ [] ⟨"a/file1.txt", "v1"⟩).1 =
      WorkerOut.returned false :=
  ((c5_item_failure_isolation cfg0 ⟨false, true, true⟩ [] ⟨"a/file1.txt", "v1"⟩).2.1
    "/dest/a/file1.txt" rfl rfl (Or.inl rfl)).1

/-- C5 counterexample: for identifier `../x` the path mapping raises
before the `try` block; the exception escapes `worker_download` with an
empty event trace, so no error is logged and no item failure is
returned. -/
theorem c5_unsafe_path_uncaught :
    worker_download cfg0 allOk [] ⟨"../x", "e"⟩ =
      (WorkerOut.raised "Unsafe key path: ../x", []) ∧
    ¬ (worker_download cfg0 allOk [] ⟨"../x", "e"⟩).1 = WorkerOut.returned false ∧
    (worker_download cfg0 allOk [] ⟨"../x", "e"⟩).2 = [] :=
  ⟨rfl, by decide, rfl⟩

/-! ### Cycle-level lemmas -/

theorem fetchPhase_nil (cfg : Cfg) (outs : Nat → Outcome) (s : SyncSt) :
    fetchPhase cfg outs s [] = ([], s) := rfl

theorem fetchPhase_cons (cfg : Cfg) (outs : Nat → Outcome) (s : SyncSt)
    (it : WorkItem) (its : List WorkItem) :
    fetchPhase cfg outs s (it :: its) =
      ((worker_download cfg (outs 0) s.mem it) ::
         (fetchPhase cfg (fun n => outs (n + 1))
           (applyEvsMD s (worker_download cfg (outs 0) s.mem it).2) its).1,
       (fetchPhase cfg (fun n => outs (n + 1))
         (applyEvsMD s (worker_download cfg (outs 0) s.mem it).2) its).2) := rfl

theorem allOkF_shift : (fun n => allOkF (n + 1)) = allOkF := rfl

theorem lastFp_none (k : String) (l : List WorkItem)
    (h : ¬ k ∈ l.map (fun o => o.key)) : lastFp k l = none := by
  induction l with
  | nil => rfl
  | cons it its ih =>
    have h1 : ¬ it.key = k := fun he => h (by simp [he])
    have h2 : ¬ k ∈ its.map (fun o => o.key) := fun hm => h (by simp [hm])
    simp [lastFp, ih h2, beq_eq_false_iff_ne.mpr h1]

theorem lastFp_mem_nodup (l : List WorkItem)
    (hnd : (l.map (fun o => o.key)).Nodup) (it : WorkItem) (hmem : it ∈ l) :
    lastFp it.key l = some it.etag := by
  induction l with
  | nil => simp at hmem
  | cons x xs ih =>
    rw [List.map_cons, List.nodup_cons] at hnd
    rcases List.mem_cons.mp hmem with he | hm
    · subst he
      simp [lastFp, lastFp_none it.key xs hnd.1]
    · simp [lastFp, ih hnd.2 hm]

theorem worker_success_state (cfg : Cfg) (s : SyncSt) (it : WorkItem)
    (target : String) (h : storeHas s.mem it.key it.etag = false)
    (hmap : s3_key_to_local_path it.key cfg.pfx cfg.destDir = Except.ok target) :
    applyEvsMD s (worker_download cfg allOk s.mem it).2 =
      ⟨storeSet s.mem it.key it.etag, storeSet s.mem it.key it.etag⟩ := by
  rw [worker_ok cfg allOk s.mem it target h hmap,
    workerFetch_success cfg allOk it target rfl rfl]
  cases hdel : cfg.deleteAfterDownload <;>
    simp [applyEvsMD, applyEvMD, allOk]

theorem fetchPhase_get (cfg : Cfg) (l : List WorkItem) :
    ∀ (s : SyncSt) (k : String),
      (∀ it ∈ l, ∃ t, s3_key_to_local_path it.key cfg.pfx cfg.destDir = Except.ok t) →
      storeGet (fetchPhase cfg allOkF s l).2.mem k =
        (match lastFp k l with
         | some e => some e
         | none => storeGet s.mem k) := by
  induction l with
  | nil =>
    intro s k _
    rfl
  | cons it its ih =>
    intro s k hmap
    rcases hmap it (by simp) with ⟨t, ht⟩
    rw [fetchPhase_cons, allOkF_shift]
    have hrest : ∀ x ∈ its, ∃ u,
        s3_key_to_local_path x.key cfg.pfx cfg.destDir = Except.ok u :=
      fun x hx => hmap x (by simp [hx])
    by_cases hhas : storeHas s.mem it.key it.etag = true
    · rw [worker_skip cfg (allOkF 0) s.mem it hhas]
      rw [show applyEvsMD s ((WorkerOut.returned false, ([] : List Ev))).2 = s from rfl]
      dsimp only
      rw [ih s k hrest]
      cases hl : lastFp k its with
      | some e => simp [lastFp, hl]
      | none =>
        cases hik : (it.key == k) with
        | true =>
          have hik' : it.key = k := beq_iff_eq.mp hik
          subst hik'
          have hget : storeGet s.mem it.key = some it.etag :=
            (storeHas_iff ..).mp hhas
          simp [lastFp, hl, hget]
        | false =>
          simp [lastFp, hl, hik]
    · have hhas' : storeHas s.mem it.key it.etag = false :=
        bool_false_of_not_true hhas
      rw [show worker_download cfg (allOkF 0) s.mem it =
          worker_download cfg allOk s.mem it from rfl,
        worker_success_state cfg s it t hhas' ht]
      dsimp only
      rw [ih _ k hrest]
      cases hl : lastFp k its with
      | some e => simp [lastFp, hl]
      | none =>
        cases hik : (it.key == k) with
        | true =>
          have hik' : it.key = k := beq_iff_eq.mp hik
          subst hik'
          simp [lastFp, hl, storeGet_set_self]
        | false =>
          have hik' : ¬ it.key = k := by
            intro he
            rw [he] at hik
            simp at hik
          simp [lastFp, hl, hik, storeGet_set_ne s.mem it.key it.etag k hik']

theorem cycleBody_work (cfg : Cfg) (outs : Nat → Outcome) (s : SyncSt)
    (listing : List WorkItem) (interval : Nat) :
    (cycleBody cfg outs s (some listing) interval).work =
      listing.filter
        (fun o => !(storeHas (storePrune s.mem (liveKeys listing)) o.key o.etag)) := rfl

theorem cycleBody_st (cfg : Cfg) (outs : Nat → Outcome) (s : SyncSt)
    (listing : List WorkItem) (interval : Nat) :
    (cycleBody cfg outs s (some listing) interval).st =
      (fetchPhase cfg outs ⟨storePrune s.mem (liveKeys listing), s.dur⟩
        ((cycleBody cfg outs s (some listing) interval).work)).2 := rfl

theorem key_mem_live (listing : List WorkItem) (it : WorkItem) (h : it ∈ listing) :
    (liveKeys listing).contains it.key = true := by
  apply List.elem_iff.mpr
  exact List.mem_map_of_mem (fun o => o.key) h

/-- C6 (amended): for a listing without duplicate identifiers, if every
work item of the first cycle maps to a valid target (so, with all-success
outcomes, every fetch succeeds), then a second cycle on the same listing
against the resulting state has an empty work set. -/
theorem c6_idempotent_no_dup (cfg : Cfg) (s : SyncSt) (listing : List WorkItem)
    (interval : Nat) (hnd : (listing.map (fun o => o.key)).Nodup)
    (hmap : ∀ it ∈ (cycleBody cfg allOkF s (some listing) interval).work,
      ∃ t, s3_key_to_local_path it.key cfg.pfx cfg.destDir = Except.ok t) :
    (cycleBody cfg allOkF ((cycleBody cfg allOkF s (some listing) interval).st)
      (some listing) interval).work = [] := by
  rw [cycleBody_work]
  rw [List.filter_eq_nil_iff]
  intro it hit
  rw [cycleBody_work] at hmap
  have hnd1 : ((listing.filter (fun o =>
      !(storeHas (storePrune s.mem (liveKeys listing)) o.key o.etag))).map
        (fun o => o.key)).Nodup :=
    hnd.sublist ((List.filter_sublist listing).map (fun o => o.key))
  have hget2 : storeGet (cycleBody cfg allOkF s (some listing) interval).st.mem
      it.key = some it.etag := by
    rw [cycleBody_st, cycleBody_work]
    rw [fetchPhase_get cfg _ _ it.key hmap]
    by_cases hin : it ∈ listing.filter (fun o =>
        !(storeHas (storePrune s.mem (liveKeys listing)) o.key o.etag))
    · rw [lastFp_mem_nodup _ hnd1 it hin]
    · have hlf : lastFp it.key (listing.filter (fun o =>
          !(storeHas (storePrune s.mem (liveKeys listing)) o.key o.etag))) = none := by
        apply lastFp_none
        intro hmem
        rcases List.mem_map.mp hmem with ⟨w, hw, hwk⟩
        have hweq : w = it :=
          List.inj_on_of_nodup_map hnd (List.mem_filter.mp hw).1 hit hwk
        exact hin (hweq ▸ hw)
      rw [hlf]
      have hhas1 : storeHas (storePrune s.mem (liveKeys listing)) it.key it.etag =
          true := by
        by_contra hcon
        have hfalse := bool_false_of_not_true hcon
        exact hin (List.mem_filter.mpr ⟨hit, by simp [hfalse]⟩)
      exact (storeHas_iff ..).mp hhas1
  have hget3 : storeGet (storePrune
      (cycleBody cfg allOkF s (some listing) interval).st.mem (liveKeys listing))
        it.key = some it.etag := by
    rw [storeGet_prune _ _ _ (key_mem_live listing it hit)]
    exact hget2
  have hhas3 := (storeHas_iff ..).mpr hget3
  simp [hhas3]

/-- C6 witness: a single-item listing synced twice produces no work in
the second cycle. -/
theorem c6_idempotent_no_dup_witness :
    (cycleBody cfg0 allOkF
      ((cycleBody cfg0 allOkF ⟨[], []⟩ (some [⟨"a/file1.txt", "v1"⟩]) 5).st)
      (some [⟨"a/file1.txt", "v1"⟩]) 5).work = [] := by
  apply c6_idempotent_no_dup cfg0 ⟨[], []⟩ [⟨"a/file1.txt", "v1"⟩] 5 (by decide)
  intro it hit
  rw [show (cycleBody cfg0 allOkF ⟨[], []⟩ (some [⟨"a/file1.txt", "v1"⟩]) 5).work =
    [⟨"a/file1.txt", "v1"⟩] from by decide] at hit
  simp at hit
  subst hit
  exact ⟨"/dest/a/file1.txt", rfl⟩

/-- C6 counterexample: a listing with the same identifier at two
fingerprints, against a state already holding the second fingerprint,
re-fetches forever — the second cycle's work set is not empty. -/
theorem c6_duplicate_ids_refetch :
    (cycleBody cfg0 allOkF ((cycleBody cfg0 allOkF s0 (some listing0) 5).st)
      (some listing0) 5).work = [⟨"k", "e2"⟩] ∧
    ¬ (cycleBody cfg0 allOkF ((cycleBody cfg0 allOkF s0 (some listing0) 5).st)
      (some listing0) 5).work = [] := by
  exact ⟨by decide, by decide⟩

/-- C8 (amended): the planner adds every record's identifier to the live
set and selects a record for the work set iff the (pruned) store lacks an
entry with exactly that fingerprint; when every occurrence enters the
work set and all workers succeed under the sequential (submission-order)
execution of the pool, the fingerprint recorded for an identifier is the
last one in listing order. -/
theorem c8_diff_planner (cfg : Cfg) (outs : Nat → Outcome) (s : SyncSt)
    (listing : List WorkItem) (interval : Nat) :
    (∀ it : WorkItem,
      it ∈ (cycleBody cfg outs s (some listing) interval).work ↔
        it ∈ listing ∧
          storeHas (storePrune s.mem (liveKeys listing)) it.key it.etag = false) ∧
    (∀ it ∈ listing, it.key ∈ liveKeys listing) ∧
    ((∀ it ∈ listing, ∃ t, s3_key_to_local_path it.key cfg.pfx cfg.destDir =
        Except.ok t) →
      (∀ it ∈ listing,
        storeHas (storePrune s.mem (liveKeys listing)) it.key it.etag = false) →
      ∀ k e, lastFp k listing = some e →
        storeGet (cycleBody cfg allOkF s (some listing) interval).st.mem k =
          some e) := by
  refine ⟨?_, ?_, ?_⟩
  · intro it
    rw [cycleBody_work]
    rw [List.mem_filter]
    constructor
    · intro ⟨h1, h2⟩
      exact ⟨h1, by simpa using h2⟩
    · intro ⟨h1, h2⟩
      exact ⟨h1, by simp [h2]⟩
  · intro it hit
    exact List.mem_map_of_mem (fun o => o.key) hit
  · intro hmapall hall k e hl
    have hwork : (cycleBody cfg allOkF s (some listing) interval).work = listing := by
      rw [cycleBody_work]
      apply List.filter_eq_self.mpr
      intro a ha
      simp [hall a ha]
    rw [cycleBody_st, hwork]
    rw [fetchPhase_get cfg listing _ k hmapall, hl]

/-- C8 witness: a fresh single-item listing records its fingerprint. -/
theorem c8_diff_planner_witness :
    storeGet ((cycleBody cfg0 allOkF ⟨[], []⟩ (some [⟨"b", "v2"⟩]) 5).st.mem) "b" =
      some "v2" := by
  apply (c8_diff_planner cfg0 allOkF ⟨[], []⟩ [⟨"b", "v2"⟩] 5).2.2
  · intro it hit
    simp at hit
    subst hit
    exact ⟨"/dest/b", rfl⟩
  · intro it hit
    simp at hit
    subst hit
    decide
  · decide

/-- C8 counterexample: with the duplicated listing `[(k,e1), (k,e2)]` and
prior state `{k: e2}`, the cycle records `e1` — the first occurrence, not
the last. -/
theorem c8_first_occurrence_wins :
    storeGet ((cycleBody cfg0 allOkF s0 (some listing0) 5).st.mem) "k" =
      some "e1" ∧
    lastFp "k" listing0 = some "e2" ∧
    ¬ storeGet ((cycleBody cfg0 allOkF s0 (some listing0) 5).st.mem) "k" =
        lastFp "k" listing0 := by
  exact ⟨by decide, by decide, by decide⟩

theorem cycleBody_trace (cfg : Cfg) (outs : Nat → Outcome) (s : SyncSt)
    (listing : List WorkItem) (interval : Nat) :
    (cycleBody cfg outs s (some listing) interval).trace =
      CEv.pruneSt (liveKeys listing) ::
        (((fetchPhase cfg outs ⟨storePrune s.mem (liveKeys listing), s.dur⟩
             ((cycleBody cfg outs s (some listing) interval).work)).1.flatMap
            (fun r => r.2.map CEv.wEv)) ++ [CEv.waitStop interval]) := rfl

theorem cycleBody_none_trace (cfg : Cfg) (outs : Nat → Outcome) (s : SyncSt)
    (interval : Nat) :
    (cycleBody cfg outs s none interval).trace =
      [CEv.logTop "S3 error", CEv.blindSleep (min 30 interval),
       CEv.waitStop interval] := rfl

/-- C4 (amended): in each successful-listing cycle the prune call is the
first controller action, before any fetching, and there is no
controller-level persist: a cycle whose work set is empty leaves the
durable store exactly as it was, so the pruned mapping is not durably
persisted by the cycle itself. -/
theorem c4_prune_first_no_persist (cfg : Cfg) (outs : Nat → Outcome) (s : SyncSt)
    (listing : List WorkItem) (interval : Nat) :
    (cycleBody cfg outs s (some listing) interval).trace.head? =
      some (CEv.pruneSt (liveKeys listing)) ∧
    ((cycleBody cfg outs s (some listing) interval).work = [] →
      (cycleBody cfg outs s (some listing) interval).st.dur = s.dur) := by
  refine ⟨by rw [cycleBody_trace]; rfl, ?_⟩
  intro hw
  rw [cycleBody_st, hw]
  rfl

/-- C4 witness: at a stale-entry scenario with empty work set, the
durable store is untouched by the cycle. -/
theorem c4_prune_first_no_persist_witness :
    (cycleBody cfg0 allOkF s4 (some listing4) 5).st.dur = s4.dur :=
  (c4_prune_first_no_persist cfg0 allOkF s4 listing4 5).2 (by decide)

/-- C4 counterexample: pruning a stale entry in a cycle with no work
leaves the pruned entry in the durable store — no persist event occurs
and prune precedes (the absent) fetching. -/
theorem c4_pruned_state_not_persisted :
    (cycleBody cfg0 allOkF s4 (some listing4) 5).trace =
      [CEv.pruneSt ["k"], CEv.waitStop 5] ∧
    storeGet (cycleBody cfg0 allOkF s4 (some listing4) 5).st.mem "stale" = none ∧
    storeGet (cycleBody cfg0 allOkF s4 (some listing4) 5).st.dur "stale" =
      some "x" ∧
    ¬ CEv.wEv Ev.saveStore ∈ (cycleBody cfg0 allOkF s4 (some listing4) 5).trace := by
  exact ⟨by decide, by decide, by decide, by decide⟩

/-- C9 (amended): the inter-cycle wait of every cycle — error cycles
included — is the interruptible `stop_event.wait`, placed last in the
cycle trace, and the loop observes the stop signal before starting each
cycle (a cycle runs only when the signal was not set); the listing-error
backoff, by contrast, is the uninterruptible `time.sleep`. -/
theorem c9_wait_cancellation (cfg : Cfg) :
    (∀ (outs : Nat → Outcome) (s : SyncSt) (lres : Option (List WorkItem))
        (interval : Nat),
      (cycleBody cfg outs s lres interval).trace.getLast? =
        some (CEv.waitStop interval) ∧
      interruptibleW (CEv.waitStop interval) = true) ∧
    (∀ (outsAt : Nat → Nat → Outcome) (listings : Nat → Option (List WorkItem))
        (stopAt : Nat → Bool) (interval fuel n : Nat) (s : SyncSt) (m : Nat)
        (c : CycleOut),
      (m, c) ∈ mainLoop cfg outsAt listings stopAt interval fuel n s →
      stopAt m = false) := by
  refine ⟨?_, ?_⟩
  · intro outs s lres interval
    refine ⟨?_, rfl⟩
    cases lres with
    | none =>
      rw [cycleBody_none_trace]
      rfl
    | some listing =>
      rw [cycleBody_trace, ← List.cons_append]
      exact List.getLast?_concat _
  · intro outsAt listings stopAt interval fuel
    induction fuel with
    | zero =>
      intro n s m c hm
      simp [mainLoop] at hm
    | succ f ih =>
      intro n s m c hm
      rw [mainLoop] at hm
      by_cases hstop : stopAt n = true
      · rw [if_pos hstop] at hm
        simp at hm
      · rw [if_neg hstop] at hm
        rcases List.mem_cons.mp hm with he | hm2
        · rw [Prod.mk.injEq] at he
          rw [he.1]
          exact bool_false_of_not_true hstop
        · exact ih (n + 1) _ m c hm2

/-- C9 witness: the interruptible wait closes an error cycle, and an
executed cycle of the loop has an unset stop signal. -/
theorem c9_wait_cancellation_witness :
    (cycleBody cfg0 allOkF s0 none 5).trace.getLast? = some (CEv.waitStop 5) ∧
    (fun _ => false : Nat → Bool) 0 = false :=
  ⟨((c9_wait_cancellation cfg0).1 allOkF s0 none 5).1,
   (c9_wait_cancellation cfg0).2 (fun _ => allOkF) (fun _ => none)
     (fun _ => false) 5 1 0 ⟨[], []⟩ 0
     (cycleBody cfg0 allOkF ⟨[], []⟩ none 5) (by decide)⟩

/-- C9 counterexample: the backoff taken after a listing error is a
`time.sleep` — a wait between cycles that the cancellation signal cannot
interrupt. -/
theorem c9_backoff_blind_sleep :
    (cycleBody cfg0 allOkF s0 none 5).trace =
      [CEv.logTop "S3 error", CEv.blindSleep 5, CEv.waitStop 5] ∧
    isWaitEv (CEv.blindSleep 5) = true ∧
    interruptibleW (CEv.blindSleep 5) = false :=
  ⟨rfl, rfl, rfl⟩

theorem parentDir_dirSlash (b m : String) (hm : ¬ '/' ∈ m.data) :
    parentDir (b ++ "/" ++ m) = b := by
  unfold parentDir
  rw [dirSlash_data, segs_append_sep, segs_of_no_sep '/' m.data hm,
    List.dropLast_concat, joinC_segs]

/-- C7: `StateStore.save` writes the full serialized in-memory mapping to
`state.tmp`, a distinct sibling of `state.json` in the same directory,
then atomically renames it over the target; at every crash point of the
save the state path holds either its previous content or the complete new
document, never a partial one. -/
theorem c7_save_write_tmp_rename (b : String) (mem : Store)
    (fs0 : String → DocVal) :
    ¬ stateTmpOf b = statePathOf b ∧
    parentDir (stateTmpOf b) = parentDir (statePathOf b) ∧
    ∀ fs ∈ saveCrashStates b mem fs0,
      fs (statePathOf b) = fs0 (statePathOf b) ∨
      fs (statePathOf b) = DocVal.newDoc mem := by
  have hpath : statePathOf b = b ++ "/" ++ "state.json" := rfl
  have htmp : stateTmpOf b = b ++ "/" ++ "state.tmp" := stateTmpOf_eq b
  have hne : ¬ stateTmpOf b = statePathOf b := by
    rw [htmp, hpath]
    intro h
    have h1 : b.data ++ '/' :: ("state.tmp" : String).data =
        b.data ++ '/' :: ("state.json" : String).data := by
      rw [← dirSlash_data, ← dirSlash_data, h]
    have h2 := List.append_cancel_left h1
    injection h2 with _ h3
    exact absurd h3 (by decide)
  refine ⟨hne, ?_, ?_⟩
  · rw [htmp, hpath, parentDir_dirSlash b "state.tmp" (by decide),
      parentDir_dirSlash b "state.json" (by decide)]
  · intro fs hfs
    simp only [saveCrashStates, List.mem_cons, List.mem_singleton] at hfs
    have hneq : ¬ statePathOf b = stateTmpOf b := fun hq => hne hq.symm
    rcases hfs with h | h | h | h
    · subst h
      exact Or.inl rfl
    · subst h
      left
      unfold updFs
      rw [if_neg hneq]
    · subst h
      left
      unfold updFs
      rw [if_neg hneq]
    · rcases h with h | h
      · subst h
        right
        unfold updFs
        rw [if_pos rfl]
      · simp at h

/-- C7 witness: the fully-renamed crash state holds the new document at
the state path. -/
theorem c7_save_write_tmp_rename_witness :
    updFs (updFs fs0c (stateTmpOf "/d") DocVal.absent) (statePathOf "/d")
        (DocVal.newDoc []) (statePathOf "/d") = fs0c (statePathOf "/d") ∨
      updFs (updFs fs0c (stateTmpOf "/d") DocVal.absent) (statePathOf "/d")
        (DocVal.newDoc []) (statePathOf "/d") = DocVal.newDoc [] :=
  (c7_save_write_tmp_rename "/d" [] fs0c).2.2 _ (by simp [saveCrashStates])

end SyncAgent
